import Mathlib

/-!
Shallow embedding of the nanorand sources (`src/rand/wyrand.rs`, `src/gen.rs`).

Machine integers are modelled as `Nat` (unsigned) and `Int` (signed) with
explicit reduction modulo `2^(8*W)` for a type of byte-width `W`.  Release-mode
Rust semantics are used for arithmetic overflow (wrapping multiplication,
wrapping negation, masked shift amounts); the one operation that is a hard
failure in every build profile, remainder by zero, is modelled by returning
`none`.  Byte buffers use little-endian (native) order: byte `i` of a value
`x` is `x / 2^(8*i) % 256`.
-/

/-- Little-endian value of a byte list (each entry is one byte; the low byte
comes first, mirroring `from_ne_bytes` on a little-endian target). -/
def leVal : List Nat → Nat
  | [] => 0
  | b :: bs => b % 256 + 256 * leVal bs

/-- Little-endian byte list of width `n` for the value `x`
(mirrors `to_ne_bytes` on a little-endian target). -/
def toLEBytes (n x : Nat) : List Nat :=
  (List.range n).map fun i => x / 2 ^ (8 * i) % 256

/-- `from_ne_bytes` of the 8-byte buffer obtained by zero-initialising and
copying the first `min (length s) 8` bytes of `s`
(the `iter_mut().zip(...)` loop in `wyrand.rs`). -/
def bytesToU64 (s : List Nat) : Nat :=
  leVal (s.take 8)

/-- First constant of the wyrand mixer (`0xa0761d6478bd642f` in `wyrand.rs`). -/
def wyC1 : Nat := 0xa0761d6478bd642f

/-- Second constant of the wyrand mixer (`0xe7037ed1a0b428db` in `wyrand.rs`). -/
def wyC2 : Nat := 0xe7037ed1a0b428db

/-- The wyrand generator state: a single 64-bit word (`struct WyRand`). -/
structure WyRand where
  seed : Nat
deriving DecidableEq, Repr

/-- `WyRand::rand` (`wyrand.rs` lines 35–40): advance the seed by `wyC1`
(wrapping), take the 128-bit wrapping product of the new seed with
`seed XOR wyC2`, fold the high half onto the low half with XOR, truncate to
64 bits, and emit as native-endian bytes. -/
def WyRand.rand (g : WyRand) : List Nat × WyRand :=
  let s := (g.seed + wyC1) % 2 ^ 64
  let t := (s * (s ^^^ wyC2)) % 2 ^ 128
  let ret := ((t >>> 64) ^^^ t) % 2 ^ 64
  (toLEBytes 8 ret, ⟨s⟩)

/-- `WyRand::rand_with_seed` (`wyrand.rs` lines 42–50): build a 64-bit seed
from the leading bytes of `s` (zero-padded), then run the same mixing steps
as `rand`, without touching any instance. -/
def WyRand.rand_with_seed (s : List Nat) : List Nat :=
  let seed := bytesToU64 s
  let seed1 := (seed + wyC1) % 2 ^ 64
  let t := (seed1 * (seed1 ^^^ wyC2)) % 2 ^ 128
  let ret := ((t >>> 64) ^^^ t) % 2 ^ 64
  toLEBytes 8 ret

/-- `WyRand::reseed` (`wyrand.rs` lines 52–56): replace the state with the
64-bit value formed from the leading bytes of `new_seed`, zero-padded. -/
def WyRand.reseed (_g : WyRand) (new_seed : List Nat) : WyRand :=
  ⟨bytesToU64 new_seed⟩

/-!
### Abstract RNG (`trait RNG`) and full-width value generation (`gen.rs`)

`trait RNG` itself lives outside the provided sources; an implementor is
characterised by the sequence of 8-byte outputs its `rand()` calls return.
We model an arbitrary implementor as a stream of 64-bit outputs plus a
cursor, so `rand()` returns the next element and advances the cursor.
-/

/-- An abstract `RNG` implementor: `out k` is the 64-bit value of the `k`-th
`rand()` output (its 8 bytes in native order), `idx` the number of calls
made so far. -/
structure RngState where
  out : Nat → Nat
  idx : Nat

/-- One `rand()` call on the abstract RNG: returns the next 64-bit output
(8 bytes) and advances the cursor. -/
def RngState.rand (r : RngState) : Nat × RngState :=
  (r.out r.idx % 2 ^ 64, ⟨r.out, r.idx + 1⟩)

/-- Modelled from the spec: `RNG::generate`, the trait method (declared
outside `src/`), dispatches to `RandomGen::random` for the requested type
(spec §4.3); the body below is the `RandomGen for $unsigned` macro body of
`gen.rs` lines 57–62: one `rand()` call, copy the first `min W 8` bytes of
its output into a zero-initialised `W`-byte buffer, reinterpret in native
order.  In little-endian terms the value is the output reduced
`mod 2^(8*min W 8)`. -/
def randomUnsigned (W : Nat) (r : RngState) : Nat × RngState :=
  let p := r.rand
  (p.1 % 2 ^ (8 * min W 8), p.2)

/-- Reinterpret the `W`-byte pattern of `u` as a signed value
(two's complement). -/
def toSigned (W : Nat) (u : Nat) : Int :=
  if u % 2 ^ (8 * W) < 2 ^ (8 * W - 1) then (u % 2 ^ (8 * W) : Int)
  else (u % 2 ^ (8 * W) : Int) - 2 ^ (8 * W)

/-- The `W`-byte two's-complement bit pattern of the signed value `i`
(Rust `as $unsigned` on a same-width signed operand). -/
def toUnsigned (W : Nat) (i : Int) : Nat :=
  (i % (2 ^ (8 * W) : Nat)).toNat

/-- Signed wrap-around to `W` bytes: Rust `as $signed` truncation of a wider
signed operand, sign-extension of a narrower one, and the result of a
wrapping signed operation. -/
def signedWrap (W : Nat) (i : Int) : Int :=
  toSigned W (toUnsigned W i)

/-- Wrapping unary minus on a `W`-byte signed value (release-mode `-x`). -/
def wrapNegS (W : Nat) (i : Int) : Int :=
  signedWrap W (-i)

/-- Modelled from the spec: `RNG::generate` dispatching to
`RandomGen for $signed` (`gen.rs` lines 89–94): same byte copy as the
unsigned case, reinterpreted as a signed value. -/
def randomSigned (W : Nat) (r : RngState) : Int × RngState :=
  let p := r.rand
  (toSigned W (p.1 % 2 ^ (8 * min W 8)), p.2)

/-- The threshold expression of the unsigned `random_range`
(`gen.rs` line 73): `(-(upper as $signed) % (upper as $signed)) as $unsigned`,
with Rust signed `%` being the truncated remainder and release-mode
negation wrapping at the minimum value. -/
def thresholdU (W upper : Nat) : Nat :=
  toUnsigned W (Int.tmod (wrapNegS W (toSigned W upper)) (toSigned W upper))

/-- The final draw selection of the unsigned `random_range`
(`gen.rs` lines 80–84): `multiresult as $unsigned` when
`BIT_SIZE == size_of::<$bigger_unsigned>()` (bits of `T` against **bytes**
of the bigger type), else `(multiresult >> BIT_SIZE) as $unsigned`; the
shift amount is reduced `mod 8*B` as release-mode Rust masks it. -/
def drawU (W B m : Nat) : Nat :=
  if 8 * W = B then m % 2 ^ (8 * W)
  else (m >>> (8 * W % (8 * B))) % 2 ^ (8 * W)

/-- The rejection loop of the unsigned `random_range` (`gen.rs` lines
74–78): while `leftover < threshold`, redraw, recompute the wrapping product
and its truncation.  `fuel` bounds the number of redraws; exhaustion yields
`none`. -/
def rejectLoopU (W B upper threshold : Nat) :
    Nat → Nat → Nat → RngState → Option (Nat × RngState)
  | 0, m, leftover, r =>
    if leftover < threshold then none else some (m, r)
  | Nat.succ fuel, m, leftover, r =>
    if leftover < threshold then
      let p := randomUnsigned B r
      let m1 := p.1 * upper % 2 ^ (8 * B)
      rejectLoopU W B upper threshold fuel m1 (m1 % 2 ^ (8 * W)) p.2
    else some (m, r)

/-- `RandomRange for $unsigned::random_range` (`gen.rs` lines 65–86) for a
base type of `W` bytes and a bigger type of `B` bytes: draw a full-width
value of the bigger type, take the wrapping product with `upper`, truncate
to `W` bytes; if the truncation is below `upper`, compute the threshold
(`none` models the remainder-by-zero panic when `upper as $signed` is zero)
and run the rejection loop; finally select the draw and take `max` with
`lower`. -/
def random_range_u (W B fuel : Nat) (r : RngState) (lower upper : Nat) :
    Option (Nat × RngState) :=
  let p := randomUnsigned B r
  let m := p.1 * upper % 2 ^ (8 * B)
  let leftover := m % 2 ^ (8 * W)
  let rest :=
    if leftover < upper then
      if toSigned W upper = 0 then none
      else rejectLoopU W B upper (thresholdU W upper) fuel m leftover p.2
    else some (m, p.2)
  match rest with
  | none => none
  | some q => some (max (drawU W B q.1) lower, q.2)

/-- The final draw selection of the signed `random_range`
(`gen.rs` lines 112–116): `multiresult as $signed` when
`BIT_SIZE == size_of::<$bigger_signed>()`, else
`(multiresult >> BIT_SIZE) as $signed`; the signed shift is arithmetic
(floor division by a power of two) and its amount is masked `mod 8*B` as
release-mode Rust does. -/
def drawS (W B : Nat) (m : Int) : Int :=
  if 8 * W = B then signedWrap W m
  else signedWrap W (Int.fdiv m (2 ^ (8 * W % (8 * B))))

/-- The rejection loop of the signed `random_range` (`gen.rs` lines
106–110): while `leftover < threshold` (signed comparison), redraw and
recompute the wrapping signed product and its `W`-byte truncation. -/
def rejectLoopS (W B : Nat) (upper threshold : Int) :
    Nat → Int → Int → RngState → Option (Int × RngState)
  | 0, m, leftover, r =>
    if leftover < threshold then none else some (m, r)
  | Nat.succ fuel, m, leftover, r =>
    if leftover < threshold then
      let p := randomSigned B r
      let m1 := signedWrap B (p.1 * signedWrap B upper)
      rejectLoopS W B upper threshold fuel m1 (signedWrap W m1) p.2
    else some (m, r)

/-- `RandomRange for $signed::random_range` (`gen.rs` lines 97–118) for a
base type of `W` bytes and a bigger type of `B` bytes: every step of the
unsigned algorithm, but carried out on signed values — the draw is a
full-width signed value of the bigger type, the product wraps in `B`-byte
signed arithmetic, the truncation `multiresult as $signed` sign-wraps to
`W` bytes, the guard `leftover < upper`, the threshold
`-(upper as $signed) % (upper as $signed)` (a truncated remainder, `none`
when `upper` is zero, modelling the panic), the loop comparison and the
final `max lower` all use signed comparisons. -/
def random_range_s (W B fuel : Nat) (r : RngState) (lower upper : Int) :
    Option (Int × RngState) :=
  let p := randomSigned B r
  let m := signedWrap B (p.1 * signedWrap B upper)
  let leftover := signedWrap W m
  let rest :=
    if leftover < upper then
      if upper = 0 then none
      else rejectLoopS W B upper (Int.tmod (wrapNegS W upper) upper) fuel m
        leftover p.2
    else some (m, p.2)
  match rest with
  | none => none
  | some q => some (max (drawS W B q.1) lower, q.2)

/-- `core::char::from_u32`: `some n` exactly when `n` is a Unicode scalar
value — not a surrogate (`0xD800..=0xDFFF`) and at most `0x10FFFF`. -/
def charFromU32 (n : Nat) : Option Nat :=
  if (0xD800 ≤ n ∧ n ≤ 0xDFFF) ∨ 0x10FFFF < n then none else some n

/-- `RandomGen for char::random` (`gen.rs` lines 15–29): loop — one
`rand()` call, copy its first 4 bytes into a zero-initialised `u32` buffer
(value `mod 2^32` in little-endian terms), and return the code point when
`char::from_u32` accepts it, otherwise redraw.  `fuel` bounds the number of
iterations; exhaustion yields `none`. -/
def charRandom : Nat → RngState → Option (Nat × RngState)
  | 0, _ => none
  | Nat.succ fuel, r =>
    let p := r.rand
    match charFromU32 (p.1 % 2 ^ 32) with
    | some c => some (c, p.2)
    | none => charRandom fuel p.2

/-- A concrete RNG stream for evaluating the models: the `k`-th `rand()`
output is the `k`-th element of `l` (zero past the end), cursor at `i`. -/
def streamOf (l : List Nat) (i : Nat) : RngState :=
  ⟨fun k => l.getD k 0, i⟩

/-!
### Theorems
-/

theorem leVal_eq_sum (l : List Nat) :
    leVal l = ∑ i ∈ Finset.range l.length, l.getD i 0 % 256 * 2 ^ (8 * i) := by
  induction l with
  | nil => simp [leVal]
  | cons b bs ih =>
    rw [leVal, ih, List.length_cons, Finset.sum_range_succ']
    simp only [List.getD_cons_succ, List.getD_cons_zero]
    have key : (∑ i ∈ Finset.range bs.length,
          bs.getD i 0 % 256 * 2 ^ (8 * (i + 1))) =
        256 * ∑ i ∈ Finset.range bs.length, bs.getD i 0 % 256 * 2 ^ (8 * i) := by
      rw [Finset.mul_sum]
      refine Finset.sum_congr rfl fun i _ => ?_
      rw [show 8 * (i + 1) = 8 * i + 8 by ring, pow_add]
      ring
    rw [key]
    ring

theorem leVal_replicate_zero (k : Nat) : leVal (List.replicate k 0) = 0 := by
  induction k with
  | zero => rfl
  | succ k ih => simp [List.replicate_succ, leVal, ih]

theorem leVal_append_replicate_zero (l : List Nat) (k : Nat) :
    leVal (l ++ List.replicate k 0) = leVal l := by
  induction l with
  | nil => simpa [leVal] using leVal_replicate_zero k
  | cons b bs ih => simp [leVal, ih]

/-- **C5**: for every byte sequence `s`, the stateless `rand_with_seed s`
returns exactly the 8-byte output that any generator instance produces when
reseeded with `s` and advanced once by `rand`; being a plain function of
`s`, it mutates no instance state. -/
theorem wyrand_rand_with_seed_eq_reseed_rand (g : WyRand) (s : List Nat) :
    WyRand.rand_with_seed s = ((WyRand.reseed g s).rand).1 := rfl

/-- **C8**: `reseed` is total and sets the 64-bit state to the little-endian
value of the first `min (length s) 8` bytes of `s`, remaining bytes zero;
hence reseeding with the first 8 bytes is the same as reseeding with `s`,
and a short seed acts like the same seed zero-padded to 8 bytes. -/
theorem wyrand_reseed_spec (g : WyRand) (s : List Nat) :
    (WyRand.reseed g s).seed =
      ∑ i ∈ Finset.range (min s.length 8), s.getD i 0 % 256 * 2 ^ (8 * i) ∧
    WyRand.reseed g (s.take 8) = WyRand.reseed g s ∧
    (s.length ≤ 8 →
      WyRand.reseed g (s ++ List.replicate (8 - s.length) 0) =
        WyRand.reseed g s) := by
  refine ⟨?_, ?_, fun hle => ?_⟩
  · show bytesToU64 s = _
    rw [bytesToU64, leVal_eq_sum, List.length_take, Nat.min_comm]
    refine Finset.sum_congr rfl fun i hi => ?_
    have hi8 : i < 8 := lt_of_lt_of_le (Finset.mem_range.mp hi) (min_le_right _ _)
    rw [List.getD_eq_getElem?_getD, List.getD_eq_getElem?_getD,
      List.getElem?_take_of_lt hi8]
  · show WyRand.mk (bytesToU64 (s.take 8)) = WyRand.mk (bytesToU64 s)
    rw [bytesToU64, bytesToU64, List.take_take, Nat.min_self]
  · show WyRand.mk (bytesToU64 (s ++ List.replicate (8 - s.length) 0)) =
      WyRand.mk (bytesToU64 s)
    rw [bytesToU64, bytesToU64,
      List.take_of_length_le (by simp [Nat.add_sub_cancel' hle]),
      List.take_of_length_le hle, leVal_append_replicate_zero]

/-- Closed instance of `wyrand_reseed_spec` at a concrete generator and a
3-byte seed, the zero-padding hypothesis discharged by `decide`. -/
theorem wyrand_reseed_spec_witness :
    (WyRand.reseed ⟨0⟩ [1, 2, 3]).seed =
      ∑ i ∈ Finset.range (min [1, 2, 3].length 8),
        [1, 2, 3].getD i 0 % 256 * 2 ^ (8 * i) ∧
    WyRand.reseed ⟨0⟩ ([1, 2, 3].take 8) = WyRand.reseed ⟨0⟩ [1, 2, 3] ∧
    WyRand.reseed ⟨0⟩ ([1, 2, 3] ++ List.replicate (8 - [1, 2, 3].length) 0) =
      WyRand.reseed ⟨0⟩ [1, 2, 3] :=
  ⟨(wyrand_reseed_spec ⟨0⟩ [1, 2, 3]).1, (wyrand_reseed_spec ⟨0⟩ [1, 2, 3]).2.1,
    (wyrand_reseed_spec ⟨0⟩ [1, 2, 3]).2.2 (by decide)⟩

/-- **C10**: for the unsigned instantiations (u8, u16, u32, u64/usize),
`random_range` with `upper = 0` succeeds for every stream, every fuel and
every `lower` — the `leftover < upper` guard is never satisfied for an
unsigned `leftover`, so the remainder-by-`upper` threshold expression is
never evaluated (no division by zero, which the model would report as
`none`), the product is `0` and the call returns `lower`. -/
theorem random_range_u_upper_zero (fuel lower : Nat) (r : RngState) :
    (random_range_u 1 2 fuel r lower 0).map Prod.fst = some lower ∧
    (random_range_u 2 4 fuel r lower 0).map Prod.fst = some lower ∧
    (random_range_u 4 8 fuel r lower 0).map Prod.fst = some lower ∧
    (random_range_u 8 16 fuel r lower 0).map Prod.fst = some lower := by
  refine ⟨?_, ?_, ?_, ?_⟩ <;>
    simp [random_range_u, randomUnsigned, RngState.rand, drawU, Nat.zero_max]

/-- **C1** (failing run): on the u8 instantiation with
`(lower, upper) = (0, 200)` and a `rand()` output whose low 16 bits are
`600`, `random_range` returns `212`, which is not below `upper` — the
claimed range containment fails on the code. -/
theorem random_range_u_result_reaches_upper :
    (random_range_u 1 2 1 (streamOf [600] 0) 0 200).map Prod.fst = some 212 ∧
    (0 : Nat) < 200 ∧ ¬(212 < 200) :=
  ⟨by decide, by decide, by decide⟩

/-- **C2** (failing run): the threshold the unsigned u8 code computes for
`upper = 10` is `0` — the signed truncated remainder `-10 % 10` — not the
biased-region size `(2^8 - 10) % 10 = 6` the claim states; consequently a
run whose first leftover is `0 < 10` exits the rejection step immediately
with `leftover = 0 < 6`. -/
theorem random_range_u_threshold_is_zero :
    thresholdU 1 10 = 0 ∧ (2 ^ 8 - 10) % 10 = 6 ∧
    (random_range_u 1 2 1 (streamOf [0] 0) 0 10).map Prod.fst = some 0 :=
  ⟨by decide, by decide, by decide⟩

/-- **C3** (failing run): on the u8 instantiation the multiplicand is drawn
at the full width of the bigger type — a `rand()` output with low 16 bits
`600` gives `x = 600 ≥ 2^8`, not a base-width value widened — and with
`upper = 200` the double-width product `600 * 200` exceeds `2^16`, so the
multiplication overflows the double-width type. -/
theorem random_range_u_multiplicand_overflows :
    (randomUnsigned 2 (streamOf [600] 0)).1 = 600 ∧
    ¬((randomUnsigned 2 (streamOf [600] 0)).1 < 2 ^ 8) ∧
    ¬(600 * 200 < 2 ^ 16) ∧ 600 * 200 % 2 ^ 16 ≠ 600 * 200 :=
  ⟨by decide, by decide, by decide, by decide⟩

/-- **C6**: for every instantiation whose bigger type is strictly wider
(u8/u16/u32/u64/usize and their signed counterparts), the pre-`lower` draw
is the high-order `W` bytes `product >>> (8*W)`; for the instantiations
whose bigger type has no more bits than the base type — u128/i128, and the
(typo'd) i32 row whose bigger type is i16 — it is the `W`-byte truncation
of the product. -/
theorem random_range_draw_selection (m : Nat) (ms : Int) :
    drawU 1 2 m = (m >>> 8) % 2 ^ 8 ∧
    drawU 2 4 m = (m >>> 16) % 2 ^ 16 ∧
    drawU 4 8 m = (m >>> 32) % 2 ^ 32 ∧
    drawU 8 16 m = (m >>> 64) % 2 ^ 64 ∧
    drawU 16 16 m = m % 2 ^ 128 ∧
    drawS 1 2 ms = signedWrap 1 (Int.fdiv ms (2 ^ 8)) ∧
    drawS 2 4 ms = signedWrap 2 (Int.fdiv ms (2 ^ 16)) ∧
    drawS 8 16 ms = signedWrap 8 (Int.fdiv ms (2 ^ 64)) ∧
    drawS 16 16 ms = signedWrap 16 ms ∧
    drawS 4 2 ms = signedWrap 4 ms := by
  refine ⟨rfl, rfl, rfl, rfl, rfl, rfl, rfl, rfl, ?_, ?_⟩ <;>
    norm_num [drawS]

/-- **C9**: whenever `char::random` returns a code point, it is a Unicode
scalar value — never in the surrogate range `0xD800..=0xDFFF` and never
above `0x10FFFF`; invalid candidates are redrawn, never returned. -/
theorem charRandom_succ (fuel : Nat) (r : RngState) :
    charRandom (fuel + 1) r =
      if (0xD800 ≤ r.rand.1 % 2 ^ 32 ∧ r.rand.1 % 2 ^ 32 ≤ 0xDFFF) ∨
          0x10FFFF < r.rand.1 % 2 ^ 32 then charRandom fuel r.rand.2
      else some (r.rand.1 % 2 ^ 32, r.rand.2) := by
  simp only [charRandom, charFromU32]
  by_cases hP : (0xD800 ≤ r.rand.1 % 2 ^ 32 ∧ r.rand.1 % 2 ^ 32 ≤ 0xDFFF) ∨
      0x10FFFF < r.rand.1 % 2 ^ 32
  · rw [if_pos hP, if_pos hP]
  · rw [if_neg hP, if_neg hP]

theorem char_random_scalar (fuel : Nat) (r : RngState) (c : Nat)
    (r' : RngState) (h : charRandom fuel r = some (c, r')) :
    ¬(0xD800 ≤ c ∧ c ≤ 0xDFFF) ∧ c ≤ 0x10FFFF := by
  induction fuel generalizing r with
  | zero => simp [charRandom] at h
  | succ fuel ih =>
    rw [charRandom_succ] at h
    by_cases hv : (0xD800 ≤ r.rand.1 % 2 ^ 32 ∧ r.rand.1 % 2 ^ 32 ≤ 0xDFFF) ∨
        0x10FFFF < r.rand.1 % 2 ^ 32
    · rw [if_pos hv] at h
      exact ih _ h
    · rw [if_neg hv] at h
      simp only [Option.some.injEq, Prod.mk.injEq] at h
      obtain ⟨h1, -⟩ := h
      subst h1
      exact ⟨fun hab => hv (Or.inl hab),
        Nat.le_of_not_lt fun hC => hv (Or.inr hC)⟩

/-- Closed instance of `char_random_scalar`: with a stream whose first
output is `65`, `char::random` returns `65`, a valid scalar value. -/
theorem char_random_scalar_witness :
    ¬(0xD800 ≤ 65 ∧ 65 ≤ 0xDFFF) ∧ 65 ≤ 0x10FFFF :=
  char_random_scalar 1 (streamOf [65] 0) 65 (streamOf [65] 1) rfl

theorem xor_mod_two_pow (a b n : Nat) :
    (a ^^^ b) % 2 ^ n = a % 2 ^ n ^^^ b % 2 ^ n := by
  apply Nat.eq_of_testBit_eq
  intro i
  by_cases h : i < n <;>
    simp [Nat.testBit_mod_two_pow, Nat.testBit_xor, h]

/-- **C4**: one `rand` call on state `s` moves the state to
`(s + wyC1) mod 2^64` and emits, as native-endian bytes, the 64-bit value
`(t >>> 64) XOR (t mod 2^64)` where `t` is the exact 128-bit product of the
new state with its XOR against `wyC2`; for initial state `0` the output is
the concrete value `0x111cb3a78f59a58e`. -/
theorem wyrand_rand_spec (s : Nat) :
    ((WyRand.mk s).rand).2.seed = (s + wyC1) % 2 ^ 64 ∧
    ((WyRand.mk s).rand).1 =
      toLEBytes 8
        ((((s + wyC1) % 2 ^ 64 * ((s + wyC1) % 2 ^ 64 ^^^ wyC2)) >>> 64) ^^^
          ((s + wyC1) % 2 ^ 64 * ((s + wyC1) % 2 ^ 64 ^^^ wyC2)) % 2 ^ 64) ∧
    ((WyRand.mk 0).rand).1 = toLEBytes 8 0x111cb3a78f59a58e := by
  refine ⟨rfl, ?_, by decide⟩
  show toLEBytes 8
      ((((((s + wyC1) % 2 ^ 64 * ((s + wyC1) % 2 ^ 64 ^^^ wyC2)) % 2 ^ 128)
          >>> 64) ^^^
        (((s + wyC1) % 2 ^ 64 * ((s + wyC1) % 2 ^ 64 ^^^ wyC2)) % 2 ^ 128)) %
        2 ^ 64) =
    toLEBytes 8
      ((((s + wyC1) % 2 ^ 64 * ((s + wyC1) % 2 ^ 64 ^^^ wyC2)) >>> 64) ^^^
        ((s + wyC1) % 2 ^ 64 * ((s + wyC1) % 2 ^ 64 ^^^ wyC2)) % 2 ^ 64)
  have hs1 : (s + wyC1) % 2 ^ 64 < 2 ^ 64 := Nat.mod_lt _ (by norm_num)
  have hx : (s + wyC1) % 2 ^ 64 ^^^ wyC2 < 2 ^ 64 :=
    Nat.xor_lt_two_pow hs1 (by norm_num [wyC2])
  have ht : (s + wyC1) % 2 ^ 64 * ((s + wyC1) % 2 ^ 64 ^^^ wyC2) < 2 ^ 128 := by
    calc (s + wyC1) % 2 ^ 64 * ((s + wyC1) % 2 ^ 64 ^^^ wyC2)
        < 2 ^ 64 * 2 ^ 64 := Nat.mul_lt_mul'' hs1 hx
      _ = 2 ^ 128 := by norm_num
  have hshift :
      ((s + wyC1) % 2 ^ 64 * ((s + wyC1) % 2 ^ 64 ^^^ wyC2)) >>> 64 < 2 ^ 64 := by
    rw [Nat.shiftRight_eq_div_pow]
    exact Nat.div_lt_of_lt_mul (by calc
      (s + wyC1) % 2 ^ 64 * ((s + wyC1) % 2 ^ 64 ^^^ wyC2) < 2 ^ 128 := ht
      _ = 2 ^ 64 * 2 ^ 64 := by norm_num)
  rw [Nat.mod_eq_of_lt ht, xor_mod_two_pow, Nat.mod_eq_of_lt hshift]

/-- **C7** (counterexample): on the i8 instantiation with
`(lower, upper) = (0, 2)` and a stream whose outputs are `65` and `256`,
the signed `random_range` returns `2` (its signed guard sends the negative
leftover `-126` into the rejection loop, which redraws), while the unsigned
algorithm on the two's-complement reinterpretations of the same inputs
returns `0` — so the signed version is not the unsigned algorithm applied
to reinterpreted inputs with the result cast back. -/
theorem random_range_s_differs_from_unsigned :
    (random_range_s 1 2 2 (streamOf [65, 256] 0) 0 2).map Prod.fst =
      some 2 ∧
    (random_range_u 1 2 2 (streamOf [65, 256] 0) (toUnsigned 1 0)
        (toUnsigned 1 2)).map (fun q => toSigned 1 q.1) = some 0 ∧
    some (2 : Int) ≠ some (0 : Int) :=
  ⟨by decide, by decide, by decide⟩

theorem toUnsigned_coe (W : Nat) (i : Int) :
    (toUnsigned W i : Int) = i % (2 : Int) ^ (8 * W) := by
  rw [toUnsigned, Int.toNat_of_nonneg (Int.emod_nonneg i (by positivity))]
  push_cast
  rfl

theorem toSigned_emod (W : Nat) (u : Nat) :
    toSigned W u % (2 : Int) ^ (8 * W) = (u : Int) % (2 : Int) ^ (8 * W) := by
  rw [toSigned]
  split
  · rw [Int.emod_emod_of_dvd _ dvd_rfl]
  · rw [Int.emod_sub_cancel]
    rw [Int.emod_emod_of_dvd _ dvd_rfl]

theorem signedWrap_emod (W : Nat) (i : Int) :
    signedWrap W i % (2 : Int) ^ (8 * W) = i % (2 : Int) ^ (8 * W) := by
  rw [signedWrap, toSigned_emod, toUnsigned_coe,
    Int.emod_emod_of_dvd _ dvd_rfl]

/-- **C7** (amended): the double-width wrapping multiplication and the
`W`-byte truncation of the signed `random_range` agree, through
two's-complement reinterpretation, with the product-and-truncate step of
the unsigned algorithm on the reinterpreted inputs; the guard, rejection
and `max` comparisons, however, are signed, so the two full functions
differ in general (see the counterexample). -/
theorem random_range_s_leftover_matches_unsigned (W B : Nat) (x upper : Int)
    (hWB : W ≤ B) :
    toUnsigned W (signedWrap W (signedWrap B (x * signedWrap B upper))) =
      toUnsigned B x * toUnsigned W upper % 2 ^ (8 * B) % 2 ^ (8 * W) := by
  have hdvd : ((2 : Int) ^ (8 * W)) ∣ ((2 : Int) ^ (8 * B)) :=
    pow_dvd_pow 2 (by omega)
  have key : ∀ a : Int, a % (2 : Int) ^ (8 * B) % (2 : Int) ^ (8 * W) =
      a % (2 : Int) ^ (8 * W) := fun a => Int.emod_emod_of_dvd a hdvd
  apply Int.ofNat_inj.mp
  push_cast
  rw [toUnsigned_coe, toUnsigned_coe, toUnsigned_coe, signedWrap_emod]
  calc signedWrap B (x * signedWrap B upper) % (2 : Int) ^ (8 * W)
      = signedWrap B (x * signedWrap B upper) % (2 : Int) ^ (8 * B) %
          (2 : Int) ^ (8 * W) := (key _).symm
    _ = x * signedWrap B upper % (2 : Int) ^ (8 * B) %
          (2 : Int) ^ (8 * W) := by rw [signedWrap_emod]
    _ = x * signedWrap B upper % (2 : Int) ^ (8 * W) := key _
    _ = x % (2 : Int) ^ (8 * W) *
          (signedWrap B upper % (2 : Int) ^ (8 * W)) %
          (2 : Int) ^ (8 * W) := by rw [Int.mul_emod]
    _ = x % (2 : Int) ^ (8 * W) *
          (upper % (2 : Int) ^ (8 * W)) % (2 : Int) ^ (8 * W) := by
        rw [← key (signedWrap B upper), signedWrap_emod, key]
    _ = x % (2 : Int) ^ (8 * B) % (2 : Int) ^ (8 * W) *
          (upper % (2 : Int) ^ (8 * W) % (2 : Int) ^ (8 * W)) %
          (2 : Int) ^ (8 * W) := by rw [key, Int.emod_emod_of_dvd _ dvd_rfl]
    _ = x % (2 : Int) ^ (8 * B) * (upper % (2 : Int) ^ (8 * W)) %
          (2 : Int) ^ (8 * W) := by rw [← Int.mul_emod]
    _ = x % (2 : Int) ^ (8 * B) * (upper % (2 : Int) ^ (8 * W)) %
          (2 : Int) ^ (8 * B) % (2 : Int) ^ (8 * W) := (key _).symm

/-- Closed instance of `random_range_s_leftover_matches_unsigned` on the
i8 instantiation at `x = 5`, `upper = -3`. -/
theorem random_range_s_leftover_matches_unsigned_witness :
    toUnsigned 1 (signedWrap 1 (signedWrap 2 (5 * signedWrap 2 (-3)))) =
      toUnsigned 2 5 * toUnsigned 1 (-3) % 2 ^ (8 * 2) % 2 ^ (8 * 1) :=
  random_range_s_leftover_matches_unsigned 1 2 5 (-3) (by decide)
